import Mathlib

/-!
Shallow embedding of the `tua_lexer` crate: the raw lexical scanner of the
Tua language (crates/tua_lexer/src/lib.rs together with the cursor
primitives of crates/tua_lexer/src/cursor.rs).

The input buffer is modelled as a `List Char` (the sequence of Unicode
scalar values of the Rust `&str`); the cursor state is passed explicitly:
every sub-lexer takes the remaining input and returns its result together
with the input left after it.  Token lengths are byte lengths of the
consumed characters, computed with `Char.utf8Size`, exactly as the Rust
cursor computes `initial_len - chars.as_str().len()` on UTF-8 data.
Panics (`unwrap`, `unreachable!`) are modelled with `Option`: `none` means
the Rust code would panic.
-/

namespace Tua

/-- Sentinel `EOF_CHAR` from cursor.rs: `pub(crate) const EOF_CHAR: char = '\0'`. -/
def EOF_CHAR : Char := '\x00'

/-- Cursor `peek`: the next character, or `EOF_CHAR` when none remains. -/
def peek (l : List Char) : Char := l.headD EOF_CHAR

/-- UTF-8 byte length of a character sequence; `str::len` counts bytes. -/
def utf8Len (l : List Char) : Nat := (l.map Char.utf8Size).sum

/-- Enum `NumberBase` from lib.rs. -/
inductive NumberBase where
  | Decimal
  | Hexadecimal
deriving DecidableEq, Repr

/-- Enum `LiteralKind` from lib.rs. -/
inductive LiteralKind where
  | Number (base : NumberBase) (empty_number : Bool) (empty_exponent : Bool)
  | ShortString (quote : Char) (terminated : Bool)
  | LongString (level : Nat) (terminated : Bool)
deriving DecidableEq, Repr

/-- Enum `TokenKind` from lib.rs. -/
inductive TokenKind where
  | ShortComment
  | LongComment (terminated : Bool)
  | Whitespace
  | Ident
  | Literal (kind : LiteralKind)
  | Semi
  | Comma
  | Dot
  | OpenParen
  | CloseParen
  | OpenBrace
  | CloseBrace
  | OpenBracket
  | CloseBracket
  | Hash
  | Tilde
  | Colon
  | Eq
  | Lt
  | Gt
  | Minus
  | Plus
  | Star
  | Slash
  | Caret
  | Percent
  | Unknown
deriving DecidableEq, Repr

/-- Struct `Token` from lib.rs: a kind tag and the byte length of the
lexeme.  The source field is `len: u32`; `len` holds that 32-bit value as a
`Nat` (every produced token has `len < 2 ^ 32`, the truncating
`as u32` cast of `len_consumed` being the `% 2 ^ 32` in `advance_token`). -/
structure Token where
  kind : TokenKind
  len : Nat
deriving DecidableEq, Repr

/-- Classifier `is_whitespace` from lib.rs. -/
def is_whitespace (c : Char) : Bool :=
  c = '\x09' || c = '\x0A' || c = '\x0B' || c = '\x0C' || c = '\x0D' || c = '\x20'

/-- Rust `char::is_ascii_control` from the standard library:
U+0000 ..= U+001F, or U+007F. -/
def is_ascii_control (c : Char) : Bool :=
  c.toNat ≤ 0x1F || c.toNat = 0x7F

/-- Rust `char::is_ascii_digit` from the standard library (the `'0'..='9'`
range pattern of lib.rs). -/
def is_ascii_digit (c : Char) : Bool :=
  '0' ≤ c && c ≤ '9'

/-- The hexadecimal-digit range pattern `'0'..='9' | 'a'..='f' | 'A'..='F'`
of `consume_hexadecimal_digits`. -/
def is_hex_digit (c : Char) : Bool :=
  is_ascii_digit c || ('a' ≤ c && c ≤ 'f') || ('A' ≤ c && c ≤ 'F')

/-- The excluded-character set of `is_ident_continue`'s `matches!`. -/
def is_ident_excluded (c : Char) : Bool :=
  match c with
  | '+' | '-' | '*' | '/' | '%' | '^' | '#' | '&' | '~' | '|' | '<' | '>'
  | '=' | '(' | ')' | '{' | '}' | '[' | ']' | ';' | ':' | ',' | '.'
  | '\\' | '\'' | '"' => true
  | _ => false

/-- Classifier `is_ident_continue` from lib.rs. -/
def is_ident_continue (c : Char) : Bool :=
  !is_ascii_control c && !is_whitespace c && !is_ident_excluded c

/-- Classifier `is_ident_start` from lib.rs. -/
def is_ident_start (c : Char) : Bool :=
  !is_ascii_digit c && is_ident_continue c

/-- Helper for `strip_hashbang`: the first element of `str::lines` of `l` (or the
empty string when there is none).  `lines` splits at `'\n'` and also strips a
`'\r'` that immediately precedes a stripped `'\n'`. -/
def first_line (l : List Char) : List Char :=
  let seg := l.takeWhile (fun c => c ≠ '\n')
  if l.dropWhile (fun c => c ≠ '\n') = [] then
    seg
  else if seg.getLast? = some '\r' then seg.dropLast else seg

/-- Function `strip_hashbang` from lib.rs: `Some(2 + first line of the tail)` when the
input literally starts with `#!`, `None` otherwise. -/
def strip_hashbang (input : List Char) : Option Nat :=
  match input with
  | '#' :: '!' :: tail => some (2 + utf8Len (first_line tail))
  | _ => none

/-- Cursor `consume_decimal_digits`: consumes a maximal run of decimal
digits and reports whether at least one digit was consumed. -/
def consume_decimal_digits (l : List Char) : Bool × List Char :=
  (!(l.takeWhile is_ascii_digit).isEmpty, l.dropWhile is_ascii_digit)

/-- Cursor `consume_hexadecimal_digits`: consumes a maximal run of hex
digits and reports whether at least one digit was consumed. -/
def consume_hexadecimal_digits (l : List Char) : Bool × List Char :=
  (!(l.takeWhile is_hex_digit).isEmpty, l.dropWhile is_hex_digit)

/-- Cursor `consume_number_exponent`: an optional sign, then a mandatory
decimal digit run; reports whether at least one digit was met. -/
def consume_number_exponent (l : List Char) : Bool × List Char :=
  let l1 := if peek l = '-' || peek l = '+' then l.tail else l
  consume_decimal_digits l1

/-- The fall-through part of `Cursor::number` after the integer part
(lib.rs lines 389-447): optional fraction, optional exponent. -/
def number_after_integer (base : NumberBase) (l : List Char) :
    TokenKind × List Char :=
  if peek l = '.' then
    match base with
    | NumberBase.Decimal =>
      let l2 := (consume_decimal_digits l.tail).2
      if peek l2 = 'e' || peek l2 = 'E' then
        let r := consume_number_exponent l2.tail
        (.Literal (.Number base false (!r.1)), r.2)
      else
        (.Literal (.Number base false false), l2)
    | NumberBase.Hexadecimal =>
      let l2 := (consume_hexadecimal_digits l.tail).2
      if peek l2 = 'p' || peek l2 = 'P' then
        let r := consume_number_exponent l2.tail
        (.Literal (.Number base false (!r.1)), r.2)
      else
        (.Literal (.Number base false false), l2)
  else if (peek l = 'e' || peek l = 'E') && base = NumberBase.Decimal then
    let r := consume_number_exponent l.tail
    (.Literal (.Number base false (!r.1)), r.2)
  else if (peek l = 'p' || peek l = 'P') && base = NumberBase.Hexadecimal then
    let r := consume_number_exponent l.tail
    (.Literal (.Number base false (!r.1)), r.2)
  else
    (.Literal (.Number base false false), l)

/-- Sub-lexer `Cursor::number` from lib.rs: `first_digit` has already been consumed,
`l` is the input after it. -/
def number (first_digit : Char) (l : List Char) : TokenKind × List Char :=
  if first_digit = '0' then
    if peek l = 'x' || peek l = 'X' then
      let r := consume_hexadecimal_digits l.tail
      if !r.1 then
        (.Literal (.Number NumberBase.Hexadecimal true false), r.2)
      else
        number_after_integer NumberBase.Hexadecimal r.2
    else if is_ascii_digit (peek l) || peek l = '.' || peek l = 'e' || peek l = 'E' then
      number_after_integer NumberBase.Decimal (consume_decimal_digits l).2
    else
      (.Literal (.Number NumberBase.Decimal false true), l)
  else
    number_after_integer NumberBase.Decimal (consume_decimal_digits l).2

/-- The scan loop of `Cursor::short_string` (lib.rs lines 452-473): returns
the `terminated` flag and the remaining input.  The match arms are taken in
source order: closing quote, backslash escape, `'\n' | EOF_CHAR`, default.
The empty-input case renders `peek` returning the `EOF_CHAR` sentinel. -/
def short_string_scan (quote : Char) : List Char → Bool × List Char
  | [] =>
    if EOF_CHAR = quote then (true, []) else (false, [])
  | c :: rest =>
    if c = quote then (true, rest)
    else if c = '\\' then
      match rest with
      | [] => short_string_scan quote []
      | e :: r2 =>
        if e = 'z' then short_string_scan quote (r2.dropWhile is_whitespace)
        else short_string_scan quote r2
    else if c = '\n' || c = EOF_CHAR then (false, c :: rest)
    else short_string_scan quote rest
termination_by l => l.length
decreasing_by
  all_goals simp only [List.length_cons, List.length_nil]
  all_goals try omega
  all_goals
    have := (List.dropWhile_suffix (l := r2) is_whitespace).length_le
  all_goals omega

/-- Sub-lexer `Cursor::short_string` from lib.rs: the opening quote has already been
consumed; wraps the scan result in the token kind. -/
def short_string (quote : Char) (l : List Char) : TokenKind × List Char :=
  let r := short_string_scan quote l
  (.Literal (.ShortString quote r.1), r.2)

/-- Shared routine `Cursor::consume_long_string_content` from lib.rs: the opening `[` has
already been consumed; scans for a `]` + `=`-run of length `level` + `]`
closer, returning the `terminated` flag and the remaining input. -/
def consume_long_string_content (level : Nat) : List Char → Bool × List Char
  | [] => (false, [])
  | c :: rest =>
    if c = ']' then
      let close_level := (rest.takeWhile (fun c => c = '=')).length
      let rest' := rest.dropWhile (fun c => c = '=')
      if close_level = level && peek rest' = ']' then (true, rest'.tail)
      else consume_long_string_content level rest'
    else consume_long_string_content level rest
termination_by l => l.length
decreasing_by
  all_goals simp only [List.length_cons]
  all_goals try omega
  all_goals exact Nat.lt_succ_of_le (List.dropWhile_suffix _).length_le

/-- The long-bracket scan loop written out inline in `Cursor::comment`
(lib.rs lines 279-291): transliterated separately so it can be compared
with the shared routine `consume_long_string_content`. -/
def comment_long_scan (open_level : Nat) : List Char → Bool × List Char
  | [] => (false, [])
  | c :: rest =>
    if c = ']' then
      let close_level := (rest.takeWhile (fun c => c = '=')).length
      let rest' := rest.dropWhile (fun c => c = '=')
      if open_level = close_level && peek rest' = ']' then (true, rest'.tail)
      else comment_long_scan open_level rest'
    else comment_long_scan open_level rest
termination_by l => l.length
decreasing_by
  all_goals simp only [List.length_cons]
  all_goals try omega
  all_goals exact Nat.lt_succ_of_le (List.dropWhile_suffix _).length_le

/-- Sub-lexer `Cursor::comment` from lib.rs: called with the remaining input starting
at the second `-` (`advance_token` has consumed the first `-` and peeked the
second); consumes the second `-` and branches on a potential long-bracket
opener, falling back to a short comment that stops before the next `'\n'`. -/
def comment (l : List Char) : TokenKind × List Char :=
  let l1 := l.tail
  if peek l1 = '[' then
    let l2 := l1.tail
    let open_level := (l2.takeWhile (fun c => c = '=')).length
    let l3 := l2.dropWhile (fun c => c = '=')
    if peek l3 = '[' then
      let r := comment_long_scan open_level l3
      (.LongComment r.1, r.2)
    else
      (.ShortComment, l3.dropWhile (fun c => c ≠ '\n'))
  else
    (.ShortComment, l1.dropWhile (fun c => c ≠ '\n'))

/-- Sub-lexer `Cursor::long_string` from lib.rs: the leading `[` has been consumed and
the next character was peeked to be `[` or `=`; any other shape reaches the
`unreachable!()` arm, modelled as `none`. -/
def long_string (l : List Char) : Option (TokenKind × List Char) :=
  if peek l = '[' then
    let r := consume_long_string_content 0 l.tail
    some (.Literal (.LongString 0 r.1), r.2)
  else if peek l = '=' then
    let level := (l.takeWhile (fun c => c = '=')).length
    let rest := l.dropWhile (fun c => c = '=')
    if peek rest = '[' then
      let r := consume_long_string_content level rest.tail
      some (.Literal (.LongString level r.1), r.2)
    else
      some (.Literal (.LongString level false), rest)
  else
    none

/-- Sub-lexer `Cursor::whitespace` from lib.rs. -/
def whitespace (l : List Char) : TokenKind × List Char :=
  (.Whitespace, l.dropWhile is_whitespace)

/-- The dispatch match of `Cursor::advance_token` (lib.rs lines 216-265):
`first_char` is the character consumed by `self.consume().unwrap()`, `l` the
input after it.  Branches are taken in source order.  `none` models the only
reachable-in-principle panic, the `unreachable!()` of `long_string`. -/
def advance_token_kind (first_char : Char) (l : List Char) :
    Option (TokenKind × List Char) :=
  if is_whitespace first_char then some (whitespace l)
  else if first_char = '-' then
    if peek l = '-' then some (comment l) else some (.Minus, l)
  else if is_ascii_digit first_char then some (number first_char l)
  else if first_char = '\'' || first_char = '"' then
    some (short_string first_char l)
  else if first_char = '[' then
    if peek l = '[' || peek l = '=' then long_string l
    else some (.OpenBracket, l)
  else if first_char = ';' then some (.Semi, l)
  else if first_char = ',' then some (.Comma, l)
  else if first_char = '.' then some (.Dot, l)
  else if first_char = '(' then some (.OpenParen, l)
  else if first_char = ')' then some (.CloseParen, l)
  else if first_char = '{' then some (.OpenBrace, l)
  else if first_char = '}' then some (.CloseBrace, l)
  else if first_char = ']' then some (.CloseBracket, l)
  else if first_char = '#' then some (.Hash, l)
  else if first_char = '~' then some (.Tilde, l)
  else if first_char = ':' then some (.Colon, l)
  else if first_char = '=' then some (.Eq, l)
  else if first_char = '<' then some (.Lt, l)
  else if first_char = '>' then some (.Gt, l)
  else if first_char = '+' then some (.Plus, l)
  else if first_char = '*' then some (.Star, l)
  else if first_char = '/' then some (.Slash, l)
  else if first_char = '^' then some (.Caret, l)
  else if first_char = '%' then some (.Percent, l)
  else if is_ident_start first_char then
    some (.Ident, l.dropWhile is_ident_continue)
  else some (.Unknown, l)

/-- Dispatcher `Cursor::advance_token` from lib.rs: wraps the dispatched
kind in a `Token` whose length is `len_consumed()`, the byte length of
everything consumed since the last reset (the first character plus whatever
the sub-lexer consumed).  `len_consumed` is
`(initial_len - chars.as_str().len()) as u32` (cursor.rs lines 53-55): the
usize subtraction is exact, and the `as u32` cast truncates, modelled by
the explicit `% 2 ^ 32`. -/
def advance_token (first_char : Char) (l : List Char) :
    Option (Token × List Char) :=
  match advance_token_kind first_char l with
  | none => none
  | some (kind, rest) =>
    some (⟨kind, (utf8Len (first_char :: l) - utf8Len rest) % 2 ^ 32⟩, rest)

theorem utf8Len_append (a b : List Char) :
    utf8Len (a ++ b) = utf8Len a + utf8Len b := by
  simp [utf8Len]

theorem utf8Len_le_of_suffix {a b : List Char} (h : a <:+ b) :
    utf8Len a ≤ utf8Len b := by
  obtain ⟨t, rfl⟩ := h
  rw [utf8Len_append]
  omega

theorem short_string_scan_suffix (quote : Char) (l : List Char) :
    (short_string_scan quote l).2 <:+ l := by
  induction l using short_string_scan.induct quote with
  | case1 h => rw [short_string_scan.eq_def]; simp [h]
  | case2 h => rw [short_string_scan.eq_def]; simp [h]
  | case3 r2 => rw [short_string_scan.eq_def]; simp
  | case4 h ih =>
    rw [short_string_scan.eq_def]
    simp only [if_neg h, if_pos rfl]
    exact ih.trans List.nil_suffix
  | case5 r2 h ih =>
    rw [short_string_scan.eq_def]
    simp only [if_neg h, if_pos rfl]
    exact ih.trans ((List.dropWhile_suffix _).trans
      ((List.suffix_cons _ _).trans (List.suffix_cons _ _)))
  | case6 e r2 he h ih =>
    rw [short_string_scan.eq_def]
    simp only [if_neg h, if_pos rfl, if_neg he]
    exact ih.trans ((List.suffix_cons _ _).trans (List.suffix_cons _ _))
  | case7 e r2 h1 h2 h3 =>
    rw [short_string_scan.eq_def]
    simp only [if_neg h1, if_neg h2, if_pos h3]
    exact List.suffix_rfl
  | case8 e r2 h1 h2 h3 ih =>
    rw [short_string_scan.eq_def]
    simp only [if_neg h1, if_neg h2, if_neg h3]
    exact ih.trans (List.suffix_cons _ _)

theorem consume_long_string_content_suffix (level : Nat) (l : List Char) :
    (consume_long_string_content level l).2 <:+ l := by
  induction l using consume_long_string_content.induct level with
  | case1 => rw [consume_long_string_content.eq_def]
  | case2 r2 cl rs h =>
    rw [consume_long_string_content.eq_def]
    simp only [if_pos rfl, if_pos h, if_true]
    exact ((List.tail_suffix _).trans (List.dropWhile_suffix _)).trans
      (List.suffix_cons _ _)
  | case3 r2 cl rs h ih =>
    rw [consume_long_string_content.eq_def]
    simp only [if_pos rfl, if_neg h]
    exact ih.trans ((List.dropWhile_suffix _).trans (List.suffix_cons _ _))
  | case4 e r2 h ih =>
    rw [consume_long_string_content.eq_def]
    simp only [if_neg h]
    exact ih.trans (List.suffix_cons _ _)

theorem comment_long_scan_suffix (open_level : Nat) (l : List Char) :
    (comment_long_scan open_level l).2 <:+ l := by
  induction l using comment_long_scan.induct open_level with
  | case1 => rw [comment_long_scan.eq_def]
  | case2 r2 cl rs h =>
    rw [comment_long_scan.eq_def]
    simp only [if_pos rfl, if_pos h, if_true]
    exact ((List.tail_suffix _).trans (List.dropWhile_suffix _)).trans
      (List.suffix_cons _ _)
  | case3 r2 cl rs h ih =>
    rw [comment_long_scan.eq_def]
    simp only [if_pos rfl, if_neg h]
    exact ih.trans ((List.dropWhile_suffix _).trans (List.suffix_cons _ _))
  | case4 e r2 h ih =>
    rw [comment_long_scan.eq_def]
    simp only [if_neg h]
    exact ih.trans (List.suffix_cons _ _)

theorem consume_decimal_digits_suffix (l : List Char) :
    (consume_decimal_digits l).2 <:+ l :=
  List.dropWhile_suffix _

theorem consume_hexadecimal_digits_suffix (l : List Char) :
    (consume_hexadecimal_digits l).2 <:+ l :=
  List.dropWhile_suffix _

theorem consume_number_exponent_suffix (l : List Char) :
    (consume_number_exponent l).2 <:+ l := by
  unfold consume_number_exponent
  split
  · exact (consume_decimal_digits_suffix _).trans (List.tail_suffix _)
  · exact consume_decimal_digits_suffix _

theorem number_after_integer_suffix (base : NumberBase) (l : List Char) :
    (number_after_integer base l).2 <:+ l := by
  have he : ∀ m n : List Char, m <:+ n →
      (consume_number_exponent m.tail).2 <:+ n := fun m n h =>
    ((consume_number_exponent_suffix m.tail).trans (List.tail_suffix m)).trans h
  have hd : (consume_decimal_digits l.tail).2 <:+ l :=
    (consume_decimal_digits_suffix l.tail).trans (List.tail_suffix l)
  have hh : (consume_hexadecimal_digits l.tail).2 <:+ l :=
    (consume_hexadecimal_digits_suffix l.tail).trans (List.tail_suffix l)
  cases base <;> unfold number_after_integer <;> dsimp only <;> split
  · split
    · exact he _ _ hd
    · exact hd
  · split
    · exact he _ _ List.suffix_rfl
    · split
      · exact he _ _ List.suffix_rfl
      · exact List.suffix_rfl
  · split
    · exact he _ _ hh
    · exact hh
  · split
    · exact he _ _ List.suffix_rfl
    · split
      · exact he _ _ List.suffix_rfl
      · exact List.suffix_rfl

theorem number_suffix (first_digit : Char) (l : List Char) :
    (number first_digit l).2 <:+ l := by
  unfold number
  dsimp only
  split
  · split
    · split
      · exact (consume_hexadecimal_digits_suffix _).trans (List.tail_suffix _)
      · exact (number_after_integer_suffix _ _).trans
          ((consume_hexadecimal_digits_suffix _).trans (List.tail_suffix _))
    · split
      · exact (number_after_integer_suffix _ _).trans
          (consume_decimal_digits_suffix _)
      · exact List.suffix_rfl
  · exact (number_after_integer_suffix _ _).trans (consume_decimal_digits_suffix _)

theorem short_string_suffix (quote : Char) (l : List Char) :
    (short_string quote l).2 <:+ l :=
  short_string_scan_suffix quote l

theorem comment_suffix (l : List Char) : (comment l).2 <:+ l := by
  unfold comment
  dsimp only
  split
  · split
    · exact (comment_long_scan_suffix _ _).trans
        (((List.dropWhile_suffix _).trans (List.tail_suffix _)).trans
          (List.tail_suffix _))
    · exact ((List.dropWhile_suffix _).trans ((List.dropWhile_suffix _).trans
        (List.tail_suffix _))).trans (List.tail_suffix _)
  · exact (List.dropWhile_suffix _).trans (List.tail_suffix _)

theorem long_string_some_suffix {l : List Char}
    (h : peek l = '[' ∨ peek l = '=') :
    ∃ k rest, long_string l = some (k, rest) ∧ rest <:+ l := by
  unfold long_string
  by_cases h1 : peek l = '['
  · rw [if_pos h1]
    exact ⟨_, _, rfl, (consume_long_string_content_suffix _ _).trans
      (List.tail_suffix _)⟩
  · have h2 : peek l = '=' := h.resolve_left h1
    rw [if_neg h1, if_pos h2]
    dsimp only
    split
    · exact ⟨_, _, rfl, (consume_long_string_content_suffix _ _).trans
        ((List.tail_suffix _).trans (List.dropWhile_suffix _))⟩
    · exact ⟨_, _, rfl, List.dropWhile_suffix _⟩

theorem advance_token_kind_some_suffix (first_char : Char) (l : List Char) :
    ∃ k rest, advance_token_kind first_char l = some (k, rest) ∧ rest <:+ l := by
  unfold advance_token_kind
  by_cases h1 : is_whitespace first_char = true
  · rw [if_pos h1]
    exact ⟨_, _, rfl, List.dropWhile_suffix _⟩
  rw [if_neg h1]
  by_cases h2 : first_char = '-'
  · rw [if_pos h2]
    by_cases hm : peek l = '-'
    · rw [if_pos hm]
      exact ⟨_, _, rfl, comment_suffix l⟩
    · rw [if_neg hm]
      exact ⟨_, _, rfl, List.suffix_rfl⟩
  rw [if_neg h2]
  by_cases h3 : is_ascii_digit first_char = true
  · rw [if_pos h3]
    exact ⟨_, _, rfl, number_suffix _ l⟩
  rw [if_neg h3]
  by_cases h4 : (decide (first_char = '\'') || decide (first_char = '"')) = true
  · rw [if_pos h4]
    exact ⟨_, _, rfl, short_string_suffix _ l⟩
  rw [if_neg h4]
  by_cases h5 : first_char = '['
  · rw [if_pos h5]
    by_cases hb : (decide (peek l = '[') || decide (peek l = '=')) = true
    · rw [if_pos hb]
      exact long_string_some_suffix (by simpa using hb)
    · rw [if_neg hb]
      exact ⟨_, _, rfl, List.suffix_rfl⟩
  rw [if_neg h5]
  by_cases h6 : first_char = ';'
  · rw [if_pos h6]
    exact ⟨_, _, rfl, List.suffix_rfl⟩
  rw [if_neg h6]
  by_cases h7 : first_char = ','
  · rw [if_pos h7]
    exact ⟨_, _, rfl, List.suffix_rfl⟩
  rw [if_neg h7]
  by_cases h8 : first_char = '.'
  · rw [if_pos h8]
    exact ⟨_, _, rfl, List.suffix_rfl⟩
  rw [if_neg h8]
  by_cases h9 : first_char = '('
  · rw [if_pos h9]
    exact ⟨_, _, rfl, List.suffix_rfl⟩
  rw [if_neg h9]
  by_cases h10 : first_char = ')'
  · rw [if_pos h10]
    exact ⟨_, _, rfl, List.suffix_rfl⟩
  rw [if_neg h10]
  by_cases h11 : first_char = '{'
  · rw [if_pos h11]
    exact ⟨_, _, rfl, List.suffix_rfl⟩
  rw [if_neg h11]
  by_cases h12 : first_char = '}'
  · rw [if_pos h12]
    exact ⟨_, _, rfl, List.suffix_rfl⟩
  rw [if_neg h12]
  by_cases h13 : first_char = ']'
  · rw [if_pos h13]
    exact ⟨_, _, rfl, List.suffix_rfl⟩
  rw [if_neg h13]
  by_cases h14 : first_char = '#'
  · rw [if_pos h14]
    exact ⟨_, _, rfl, List.suffix_rfl⟩
  rw [if_neg h14]
  by_cases h15 : first_char = '~'
  · rw [if_pos h15]
    exact ⟨_, _, rfl, List.suffix_rfl⟩
  rw [if_neg h15]
  by_cases h16 : first_char = ':'
  · rw [if_pos h16]
    exact ⟨_, _, rfl, List.suffix_rfl⟩
  rw [if_neg h16]
  by_cases h17 : first_char = '='
  · rw [if_pos h17]
    exact ⟨_, _, rfl, List.suffix_rfl⟩
  rw [if_neg h17]
  by_cases h18 : first_char = '<'
  · rw [if_pos h18]
    exact ⟨_, _, rfl, List.suffix_rfl⟩
  rw [if_neg h18]
  by_cases h19 : first_char = '>'
  · rw [if_pos h19]
    exact ⟨_, _, rfl, List.suffix_rfl⟩
  rw [if_neg h19]
  by_cases h20 : first_char = '+'
  · rw [if_pos h20]
    exact ⟨_, _, rfl, List.suffix_rfl⟩
  rw [if_neg h20]
  by_cases h21 : first_char = '*'
  · rw [if_pos h21]
    exact ⟨_, _, rfl, List.suffix_rfl⟩
  rw [if_neg h21]
  by_cases h22 : first_char = '/'
  · rw [if_pos h22]
    exact ⟨_, _, rfl, List.suffix_rfl⟩
  rw [if_neg h22]
  by_cases h23 : first_char = '^'
  · rw [if_pos h23]
    exact ⟨_, _, rfl, List.suffix_rfl⟩
  rw [if_neg h23]
  by_cases h24 : first_char = '%'
  · rw [if_pos h24]
    exact ⟨_, _, rfl, List.suffix_rfl⟩
  rw [if_neg h24]
  by_cases h25 : is_ident_start first_char = true
  · rw [if_pos h25]
    exact ⟨_, _, rfl, List.dropWhile_suffix _⟩
  rw [if_neg h25]
  exact ⟨_, _, rfl, List.suffix_rfl⟩

theorem advance_token_some_suffix (first_char : Char) (l : List Char) :
    ∃ t rest, advance_token first_char l = some (t, rest) ∧ rest <:+ l ∧
      t.len = (utf8Len (first_char :: l) - utf8Len rest) % 2 ^ 32 := by
  obtain ⟨k, rest, heq, hs⟩ := advance_token_kind_some_suffix first_char l
  refine ⟨⟨k, (utf8Len (first_char :: l) - utf8Len rest) % 2 ^ 32⟩, rest,
    ?_, hs, rfl⟩
  unfold advance_token
  rw [heq]

theorem advance_token_elim {first_char : Char} {l rest : List Char} {t : Token}
    (h : advance_token first_char l = some (t, rest)) :
    rest <:+ l ∧
      t.len = (utf8Len (first_char :: l) - utf8Len rest) % 2 ^ 32 := by
  obtain ⟨t', rest', heq, hs, hlen⟩ := advance_token_some_suffix first_char l
  rw [heq] at h
  simp only [Option.some.injEq, Prod.mk.injEq] at h
  obtain ⟨rfl, rfl⟩ := h
  exact ⟨hs, hlen⟩

/-- Iterator `tokenize` from lib.rs: repeatedly `reset_len_consumed` + `advance_token`
until the cursor is at end of input.  The `consume().unwrap()` at the head of
`advance_token` is rendered by the pattern match: `advance_token` is applied
only to a non-empty input, exactly as the `is_eof` guard of `tokenize`
ensures in the source. -/
def tokenize : List Char → Option (List Token)
  | [] => some []
  | first_char :: rest =>
    match h : advance_token first_char rest with
    | none => none
    | some (t, rest') =>
      match tokenize rest' with
      | none => none
      | some ts => some (t :: ts)
termination_by l => l.length
decreasing_by
  have := ((advance_token_elim h).1).length_le
  simp only [List.length_cons]
  omega

theorem takeWhile_eq_nil_of_peek {p : Char → Bool} {l : List Char}
    (h : p (peek l) = false) : l.takeWhile p = [] := by
  cases l with
  | nil => rfl
  | cons a r =>
    simp only [peek, List.headD_cons] at h
    simp [List.takeWhile_cons, h]

theorem dropWhile_eq_self_of_peek {p : Char → Bool} {l : List Char}
    (h : p (peek l) = false) : l.dropWhile p = l := by
  cases l with
  | nil => rfl
  | cons a r =>
    simp only [peek, List.headD_cons] at h
    simp [List.dropWhile_cons, h]

theorem utf8Len_replicate (n : Nat) (c : Char) :
    utf8Len (List.replicate n c) = n * c.utf8Size := by
  simp [utf8Len, List.map_replicate, List.sum_replicate, Nat.smul_one_eq_cast]

theorem tokenize_cons_eq {c : Char} {l rest' : List Char} {t : Token}
    {ts : List Token} (h1 : advance_token c l = some (t, rest'))
    (h2 : tokenize rest' = some ts) :
    tokenize (c :: l) = some (t :: ts) := by
  rw [tokenize.eq_def]
  dsimp only
  split
  · rename_i hnone
    rw [h1] at hnone
    simp at hnone
  · rename_i t2 rest2 hsome
    rw [h1] at hsome
    simp only [Option.some.injEq, Prod.mk.injEq] at hsome
    obtain ⟨rfl, rfl⟩ := hsome
    rw [h2]

theorem tokenize_total_aux : ∀ (n : Nat) (l : List Char), l.length ≤ n →
    ∃ ts, tokenize l = some ts := by
  intro n
  induction n with
  | zero =>
    intro l hl
    have hnil : l = [] := List.eq_nil_of_length_eq_zero (Nat.le_zero.mp hl)
    subst hnil
    exact ⟨[], by rw [tokenize.eq_def]⟩
  | succ n ih =>
    intro l hl
    match l with
    | [] => exact ⟨[], by rw [tokenize.eq_def]⟩
    | c :: rest =>
      obtain ⟨t, rest', heq, hs, _⟩ := advance_token_some_suffix c rest
      have hlt : rest'.length ≤ n := by
        have h1 := hs.length_le
        simp only [List.length_cons] at hl
        omega
      obtain ⟨ts, hts⟩ := ih rest' hlt
      exact ⟨t :: ts, tokenize_cons_eq heq hts⟩

theorem tokenize_total (l : List Char) : ∃ ts, tokenize l = some ts :=
  tokenize_total_aux l.length l le_rfl

theorem tokenize_isSome (l : List Char) : (tokenize l).isSome = true := by
  obtain ⟨ts, hts⟩ := tokenize_total l
  rw [hts]
  rfl

theorem tokenize_spec_aux : ∀ (n : Nat) (l : List Char), l.length ≤ n →
    utf8Len l < 2 ^ 32 →
    ∃ ts, tokenize l = some ts ∧
      (ts.all fun t => decide (0 < t.len)) = true ∧
      (ts.map Token.len).sum = utf8Len l := by
  intro n
  induction n with
  | zero =>
    intro l hl _
    have hnil : l = [] := List.eq_nil_of_length_eq_zero (Nat.le_zero.mp hl)
    subst hnil
    exact ⟨[], by rw [tokenize.eq_def], rfl, rfl⟩
  | succ n ih =>
    intro l hl hb
    match l with
    | [] => exact ⟨[], by rw [tokenize.eq_def], rfl, rfl⟩
    | c :: rest =>
      obtain ⟨t, rest', heq, hs, hlen⟩ := advance_token_some_suffix c rest
      have hsize := Char.utf8Size_pos c
      have hc : utf8Len (c :: rest) = c.utf8Size + utf8Len rest := by
        simp [utf8Len]
      have hle : utf8Len rest' ≤ utf8Len rest := utf8Len_le_of_suffix hs
      have hsub : utf8Len (c :: rest) - utf8Len rest' < 2 ^ 32 := by omega
      have hlen2 : t.len = utf8Len (c :: rest) - utf8Len rest' := by
        rw [hlen, Nat.mod_eq_of_lt hsub]
      have hlt : rest'.length ≤ n := by
        have h1 := hs.length_le
        simp only [List.length_cons] at hl
        omega
      have hb2 : utf8Len rest' < 2 ^ 32 := by omega
      obtain ⟨ts, hts, hall, hsum⟩ := ih rest' hlt hb2
      refine ⟨t :: ts, tokenize_cons_eq heq hts, ?_, ?_⟩
      · simp only [List.all_cons, hall, Bool.and_true]
        have hpos : 0 < t.len := by omega
        simpa using hpos
      · simp only [List.map_cons, List.sum_cons, hsum, hlen2]
        omega

theorem tokenize_spec (l : List Char) (hb : utf8Len l < 2 ^ 32) :
    ∃ ts, tokenize l = some ts ∧
      (ts.all fun t => decide (0 < t.len)) = true ∧
      (ts.map Token.len).sum = utf8Len l :=
  tokenize_spec_aux l.length l le_rfl hb

/-- C1, counterexample: an input of 2 ^ 32 `a` characters is one identifier
lexeme of 2 ^ 32 bytes, and the truncating `as u32` cast of `len_consumed`
wraps its length to 0 — the produced token's length is not strictly
positive and the lengths sum to 0, not to the input's byte length. -/
theorem C1_counterexample :
    tokenize (List.replicate (2 ^ 32) 'a') =
      some [⟨TokenKind.Ident, 0⟩] ∧
    ¬((([⟨TokenKind.Ident, 0⟩] : List Token).all fun t =>
        decide (0 < t.len)) = true) ∧
    (([⟨TokenKind.Ident, 0⟩] : List Token).map Token.len).sum ≠
      utf8Len (List.replicate (2 ^ 32) 'a') := by
  have hone : Char.utf8Size 'a' = 1 := by decide
  have hsucc : List.replicate (2 ^ 32) 'a' =
      'a' :: List.replicate (2 ^ 32 - 1) 'a' := by
    conv_lhs => rw [show (2 ^ 32 : Nat) = (2 ^ 32 - 1) + 1 by norm_num]
    rw [List.replicate_succ]
  refine ⟨?_, by decide, ?_⟩
  · have hk : ∀ m : List Char, advance_token_kind 'a' m =
        some (.Ident, m.dropWhile is_ident_continue) := by
      intro m
      unfold advance_token_kind
      simp +decide [is_whitespace, is_ascii_digit]
    have hdw : (List.replicate (2 ^ 32 - 1) 'a').dropWhile
        is_ident_continue = [] := by
      rw [List.dropWhile_eq_nil_iff]
      intro a ha
      rw [List.eq_of_mem_replicate ha]
      decide
    have hlen : (utf8Len ('a' :: List.replicate (2 ^ 32 - 1) 'a') -
        utf8Len ([] : List Char)) % 2 ^ 32 = 0 := by
      have h1 : utf8Len ('a' :: List.replicate (2 ^ 32 - 1) 'a') = 2 ^ 32 := by
        rw [← hsucc, utf8Len_replicate, hone, Nat.mul_one]
      rw [h1]
      simp [utf8Len]
    have hadv : advance_token 'a' (List.replicate (2 ^ 32 - 1) 'a') =
        some (⟨.Ident, 0⟩, []) := by
      unfold advance_token
      rw [hk, hdw]
      dsimp only
      rw [hlen]
    rw [hsucc]
    exact tokenize_cons_eq hadv (by rw [tokenize.eq_def])
  · have h1 : utf8Len (List.replicate (2 ^ 32) 'a') = 2 ^ 32 := by
      rw [utf8Len_replicate, hone, Nat.mul_one]
    rw [h1]
    norm_num

/-- C1 (amended): for every finite input whose byte length is below 2 ^ 32
— so the u32 length counter `len_consumed` casts without wrapping —
`tokenize` yields a finite token sequence in which every token's length is
strictly positive and the lengths sum exactly to the input's byte length
(no gaps or overlaps); the empty input yields the empty sequence. -/
theorem C1_lengths_cover_input :
    (∀ l : List Char, utf8Len l < 2 ^ 32 → ∃ ts, tokenize l = some ts ∧
      (ts.all fun t => decide (0 < t.len)) = true ∧
      (ts.map Token.len).sum = utf8Len l) ∧
    tokenize [] = some [] := by
  refine ⟨fun l hb => tokenize_spec l hb, ?_⟩
  rw [tokenize.eq_def]

theorem C1_witness :
    ∃ ts, tokenize ['a'] = some ts ∧
      (ts.all fun t => decide (0 < t.len)) = true ∧
      (ts.map Token.len).sum = utf8Len ['a'] :=
  C1_lengths_cover_input.1 ['a'] (by decide)

/-- C10: tokenizing never panics: `advance_token` (applied, as in `tokenize`,
only after the non-eof check, so its leading `consume().unwrap()` succeeds)
always yields a token; `long_string`, invoked only when the peeked character
is `[` or `=`, never reaches its `unreachable!()` arm; and `tokenize` is
total. -/
theorem C10_no_panic :
    (∀ (c : Char) (l : List Char), (advance_token c l).isSome = true) ∧
    (∀ l : List Char, peek l = '[' ∨ peek l = '=' →
      (long_string l).isSome = true) ∧
    (∀ l : List Char, (tokenize l).isSome = true) := by
  refine ⟨?_, ?_, tokenize_isSome⟩
  · intro c l
    obtain ⟨t, rest, heq, _⟩ := advance_token_some_suffix c l
    rw [heq]
    rfl
  · intro l h
    obtain ⟨k, rest, heq, _⟩ := long_string_some_suffix h
    rw [heq]
    rfl

theorem C10_no_panic_witness :
    (advance_token '[' ['[']).isSome = true ∧
    (long_string ['[']).isSome = true ∧
    (tokenize ['[', '[']).isSome = true :=
  ⟨C10_no_panic.1 '[' ['['], C10_no_panic.2.1 ['['] (Or.inl rfl),
    C10_no_panic.2.2 ['[', '[']⟩

/-- C4: an input beginning with `0` then `x`/`X` and no hexadecimal digit
after the prefix yields `Number{base: Hexadecimal, empty_number: true,
empty_exponent: false}`; in particular `"0x"` is one such token of
length 2. -/
theorem C4_hex_prefix_empty_number :
    (∀ (x : Char) (rest : List Char), x = 'x' ∨ x = 'X' →
      is_hex_digit (peek rest) = false →
      number '0' (x :: rest) =
        (.Literal (.Number .Hexadecimal true false), rest)) ∧
    tokenize ['0', 'x'] =
      some [⟨.Literal (.Number .Hexadecimal true false), 2⟩] := by
  constructor
  · intro x rest hx hd
    have hc : (decide (peek (x :: rest) = 'x') ||
        decide (peek (x :: rest) = 'X')) = true := by
      rcases hx with rfl | rfl <;> simp [peek]
    unfold number
    rw [if_pos rfl, if_pos hc]
    have htw : rest.takeWhile is_hex_digit = [] :=
      takeWhile_eq_nil_of_peek hd
    have hdw : rest.dropWhile is_hex_digit = rest :=
      dropWhile_eq_self_of_peek hd
    simp [consume_hexadecimal_digits, htw, hdw]
  · simp +decide [tokenize, advance_token, advance_token_kind, number, peek,
      consume_hexadecimal_digits, utf8Len, is_whitespace, is_ascii_digit]

theorem C4_witness :
    number '0' ['x'] = (.Literal (.Number .Hexadecimal true false), []) :=
  C4_hex_prefix_empty_number.1 'x' [] (Or.inl rfl) (by decide)

/-- C5: a lone `0` followed by end of input or by a character other than
`x`, `X`, a decimal digit, `.`, `e`, `E` yields, as the first token,
`Number{base: Decimal, empty_number: false, empty_exponent: true}` of
length 1 — the sentinel reuse of the exponent-absence flag. -/
theorem C5_lone_zero_sentinel :
    ∀ l : List Char, peek l ≠ 'x' → peek l ≠ 'X' →
      is_ascii_digit (peek l) = false → peek l ≠ '.' → peek l ≠ 'e' →
      peek l ≠ 'E' →
      ∃ ts, tokenize ('0' :: l) =
        some (⟨.Literal (.Number .Decimal false true), 1⟩ :: ts) := by
  intro l h1 h2 h3 h4 h5 h6
  have hnum : number '0' l = (.Literal (.Number .Decimal false true), l) := by
    unfold number
    rw [if_pos rfl]
    rw [if_neg (by simp [h1, h2]), if_neg (by simp [h3, h4, h5, h6])]
  have hkind : advance_token_kind '0' l = some (number '0' l) := by
    unfold advance_token_kind
    simp +decide [is_whitespace, is_ascii_digit]
  have hadv : advance_token '0' l =
      some (⟨.Literal (.Number .Decimal false true), 1⟩, l) := by
    unfold advance_token
    rw [hkind, hnum]
    have h7 : (utf8Len ('0' :: l) - utf8Len l) % 2 ^ 32 = 1 := by
      have h8 : utf8Len ('0' :: l) = 1 + utf8Len l := by simp +decide [utf8Len]
      have h9 : utf8Len ('0' :: l) - utf8Len l = 1 := by omega
      rw [h9]
      norm_num
    dsimp only
    rw [h7]
  obtain ⟨ts, hts⟩ := tokenize_total l
  exact ⟨ts, tokenize_cons_eq hadv hts⟩

theorem C5_witness :
    ∃ ts, tokenize ['0'] =
      some (⟨.Literal (.Number .Decimal false true), 1⟩ :: ts) :=
  C5_lone_zero_sentinel [] (by decide) (by decide) (by decide) (by decide)
    (by decide) (by decide)

/-- C6: the utility `strip_hashbang` returns `Some` exactly when the
input's literal first two characters are `#!`; the value is the byte length
of the first line, counting the `#!` prefix and excluding the line
terminator, stated case by case for every input: a first line reaching end
of input with no terminator, a first line terminated by a bare `'\n'`, and
a first line terminated by `"\r\n"`; `#!` on a later line gives `None`. -/
theorem C6_strip_hashbang :
    (∀ l : List Char, (strip_hashbang l).isSome = true ↔
      ∃ tail, l = '#' :: '!' :: tail) ∧
    (∀ tail : List Char, '\n' ∉ tail →
      strip_hashbang ('#' :: '!' :: tail) = some (2 + utf8Len tail)) ∧
    (∀ (pre post : List Char), '\n' ∉ pre → pre.getLast? ≠ some '\r' →
      strip_hashbang ('#' :: '!' :: (pre ++ '\n' :: post)) =
        some (2 + utf8Len pre)) ∧
    (∀ (pre post : List Char), '\n' ∉ pre →
      strip_hashbang ('#' :: '!' :: (pre ++ '\r' :: '\n' :: post)) =
        some (2 + utf8Len pre)) ∧
    strip_hashbang "#!/bin/tua\nrest".data = some 10 ∧
    strip_hashbang "\n#!/bin/tua".data = none ∧
    strip_hashbang "#!abc\r\nx".data = some 5 := by
  refine ⟨?_, ?_, ?_, ?_, by decide, by decide, by decide⟩
  · intro l
    rw [strip_hashbang.eq_def]
    split
    · rename_i tail
      simp
    · rename_i hne
      simp only [Option.isSome_none, Bool.false_eq_true, false_iff]
      rintro ⟨tail, rfl⟩
      exact hne tail rfl
  · intro tail hnl
    have hd : tail.dropWhile (fun c => c ≠ '\n') = [] := by
      rw [List.dropWhile_eq_nil_iff]
      intro a ha
      exact decide_eq_true (fun h => hnl (h ▸ ha))
    have ht := List.takeWhile_append_dropWhile
      (fun c => decide (c ≠ '\n')) tail
    rw [hd, List.append_nil] at ht
    have h1 : strip_hashbang ('#' :: '!' :: tail) =
        some (2 + utf8Len (first_line tail)) := rfl
    rw [h1]
    unfold first_line
    dsimp only
    rw [if_pos hd, ht]
  · intro pre post hnl hcr
    have hallp : ∀ a ∈ pre, (fun c => decide (c ≠ '\n')) a = true := by
      intro a ha
      exact decide_eq_true (fun h => hnl (h ▸ ha))
    have htw : (pre ++ '\n' :: post).takeWhile (fun c => c ≠ '\n') =
        pre := by
      rw [List.takeWhile_append_of_pos hallp]
      simp [List.takeWhile_cons]
    have hdw : (pre ++ '\n' :: post).dropWhile (fun c => c ≠ '\n') =
        '\n' :: post := by
      rw [List.dropWhile_append_of_pos hallp]
      simp [List.dropWhile_cons]
    have h1 : strip_hashbang ('#' :: '!' :: (pre ++ '\n' :: post)) =
        some (2 + utf8Len (first_line (pre ++ '\n' :: post))) := rfl
    rw [h1]
    unfold first_line
    dsimp only
    rw [htw, hdw, if_neg (by simp), if_neg hcr]
  · intro pre post hnl
    have hallp : ∀ a ∈ pre ++ ['\r'],
        (fun c => decide (c ≠ '\n')) a = true := by
      intro a ha
      rcases List.mem_append.mp ha with h | h
      · exact decide_eq_true (fun hh => hnl (hh ▸ h))
      · simp only [List.mem_singleton] at h
        simp [h]
    have hsplit : pre ++ '\r' :: '\n' :: post =
        (pre ++ ['\r']) ++ '\n' :: post := by
      simp
    have htw : (pre ++ '\r' :: '\n' :: post).takeWhile
        (fun c => c ≠ '\n') = pre ++ ['\r'] := by
      rw [hsplit, List.takeWhile_append_of_pos hallp]
      simp [List.takeWhile_cons]
    have hdw : (pre ++ '\r' :: '\n' :: post).dropWhile
        (fun c => c ≠ '\n') = '\n' :: post := by
      rw [hsplit, List.dropWhile_append_of_pos hallp]
      simp [List.dropWhile_cons]
    have h1 : strip_hashbang ('#' :: '!' :: (pre ++ '\r' :: '\n' :: post)) =
        some (2 + utf8Len (first_line (pre ++ '\r' :: '\n' :: post))) := rfl
    rw [h1]
    unfold first_line
    dsimp only
    rw [htw, hdw, if_neg (by simp), if_pos (List.getLast?_concat pre),
      List.dropLast_concat]

theorem C6_witness :
    strip_hashbang ('#' :: '!' :: ['a']) = some 3 ∧
    strip_hashbang ('#' :: '!' :: (['a'] ++ '\n' :: ['b'])) = some 3 ∧
    strip_hashbang ('#' :: '!' :: (['a'] ++ '\r' :: '\n' :: ['b'])) =
      some 3 :=
  ⟨C6_strip_hashbang.2.1 ['a'] (by decide),
   C6_strip_hashbang.2.2.1 ['a'] ['b'] (by decide) (by decide),
   C6_strip_hashbang.2.2.2.1 ['a'] ['b'] (by decide)⟩

theorem dropWhile_not_lf (m : List Char) :
    m.dropWhile (fun c => c ≠ '\n') = [] ∨
      peek (m.dropWhile (fun c => c ≠ '\n')) = '\n' := by
  induction m with
  | nil => exact Or.inl rfl
  | cons a r ih =>
    by_cases ha : a = '\n'
    · right
      rw [List.dropWhile_cons, if_neg (by simp [ha])]
      simp [peek, ha]
    · rw [List.dropWhile_cons, if_pos (by simp [ha])]
      exact ih

/-- C7: a `--` followed by `[` and an `=`-run that is not followed by another
`[` falls back to a short comment: one `ShortComment` token extending
through the end of the line (line feed not consumed) or end of input — the
remaining input resumes exactly at the line feed — whose reported length is
the consumed byte count under the u32 cast of `len_consumed`. -/
theorem C7_comment_fallback :
    ∀ (n : Nat) (rest : List Char), peek rest ≠ '[' → peek rest ≠ '=' →
      comment ('-' :: '[' :: (List.replicate n '=' ++ rest)) =
        (.ShortComment, rest.dropWhile fun c => c ≠ '\n') ∧
      ((rest.dropWhile fun c => c ≠ '\n') = [] ∨
        peek (rest.dropWhile fun c => c ≠ '\n') = '\n') ∧
      ∃ ts, tokenize ('-' :: '-' :: '[' :: (List.replicate n '=' ++ rest)) =
        some (⟨.ShortComment,
          (3 + n + utf8Len (rest.takeWhile fun c => c ≠ '\n')) % 2 ^ 32⟩
          :: ts) := by
  intro n rest h1 h2
  have hall : ∀ a ∈ List.replicate n '=',
      (fun c => decide (c = '=')) a = true := by
    intro a ha
    simp [List.eq_of_mem_replicate ha]
  have htw0 : rest.takeWhile (fun c => c = '=') = [] :=
    takeWhile_eq_nil_of_peek (by simpa using h2)
  have hdw0 : rest.dropWhile (fun c => c = '=') = rest :=
    dropWhile_eq_self_of_peek (by simpa using h2)
  have htw : (List.replicate n '=' ++ rest).takeWhile (fun c => c = '=') =
      List.replicate n '=' := by
    rw [List.takeWhile_append_of_pos hall, htw0, List.append_nil]
  have hdw : (List.replicate n '=' ++ rest).dropWhile (fun c => c = '=') =
      rest := by
    rw [List.dropWhile_append_of_pos hall, hdw0]
  have hcm : comment ('-' :: '[' :: (List.replicate n '=' ++ rest)) =
      (.ShortComment, rest.dropWhile fun c => c ≠ '\n') := by
    unfold comment
    simp only [peek, List.tail_cons, List.headD_cons, if_true]
    rw [hdw, if_neg (show ¬(rest.headD EOF_CHAR = '[') by
      simpa [peek] using h1)]
  refine ⟨hcm, dropWhile_not_lf rest, ?_⟩
  · have hk : advance_token_kind '-' ('-' :: '[' ::
        (List.replicate n '=' ++ rest)) =
        some (comment ('-' :: '[' :: (List.replicate n '=' ++ rest))) := by
      unfold advance_token_kind
      simp +decide [peek]
    have e1 : utf8Len ('-' :: '-' :: '[' :: (List.replicate n '=' ++ rest)) =
        3 + (n + utf8Len rest) := by
      have h3 : utf8Len ['-', '-', '['] = 3 := by decide
      have h4 : '='.utf8Size = 1 := by decide
      rw [show ('-' :: '-' :: '[' :: (List.replicate n '=' ++ rest)) =
        ['-', '-', '['] ++ (List.replicate n '=' ++ rest) from rfl,
        utf8Len_append, utf8Len_append, utf8Len_replicate, h3, h4,
        Nat.mul_one]
    have e2 := congrArg utf8Len (List.takeWhile_append_dropWhile
        (p := fun c => decide (c ≠ '\n')) (l := rest))
    rw [utf8Len_append] at e2
    have hlen : utf8Len ('-' :: '-' :: '[' :: (List.replicate n '=' ++ rest)) -
        utf8Len (rest.dropWhile fun c => c ≠ '\n') =
        3 + n + utf8Len (rest.takeWhile fun c => c ≠ '\n') := by
      omega
    have hadv : advance_token '-' ('-' :: '[' ::
        (List.replicate n '=' ++ rest)) =
        some (⟨.ShortComment,
          (3 + n + utf8Len (rest.takeWhile fun c => c ≠ '\n')) % 2 ^ 32⟩,
          rest.dropWhile fun c => c ≠ '\n') := by
      unfold advance_token
      rw [hk, hcm]
      dsimp only
      rw [hlen]
    obtain ⟨ts, hts⟩ := tokenize_total (rest.dropWhile fun c => c ≠ '\n')
    exact ⟨ts, tokenize_cons_eq hadv hts⟩

theorem C7_witness :
    comment ('-' :: '[' :: (List.replicate 1 '=' ++ ['a', '\n', 'b'])) =
      (.ShortComment, (['a', '\n', 'b'].dropWhile fun c => c ≠ '\n')) ∧
    (((['a', '\n', 'b'].dropWhile fun c => c ≠ '\n') = []) ∨
      peek (['a', '\n', 'b'].dropWhile fun c => c ≠ '\n') = '\n') ∧
    ∃ ts, tokenize ('-' :: '-' :: '[' ::
        (List.replicate 1 '=' ++ ['a', '\n', 'b'])) =
      some (⟨.ShortComment,
        (3 + 1 + utf8Len (['a', '\n', 'b'].takeWhile fun c => c ≠ '\n'))
        % 2 ^ 32⟩ :: ts) :=
  C7_comment_fallback 1 ['a', '\n', 'b'] (by decide) (by decide)

/-- C8: inside a short string a backslash plus exactly one character is one
escape unit (an escaped quote does not terminate), and `\z` additionally
consumes the following whitespace run; the scenario input is one terminated
token covering the whole input. -/
theorem C8_backslash_escape :
    (∀ (q e : Char) (rest : List Char), q ≠ '\\' → e ≠ 'z' →
      short_string_scan q ('\\' :: e :: rest) = short_string_scan q rest) ∧
    (∀ (q : Char) (rest : List Char), q ≠ '\\' →
      short_string_scan q ('\\' :: 'z' :: rest) =
        short_string_scan q (rest.dropWhile is_whitespace)) ∧
    tokenize ['\'', 'a', '\\', 'z', ' ', ' ', ' ', 'b', '\''] =
      some [⟨.Literal (.ShortString '\'' true), 9⟩] := by
  refine ⟨?_, ?_, ?_⟩
  · intro q e rest hq he
    rw [short_string_scan.eq_def]
    dsimp only
    rw [if_neg (Ne.symm hq), if_pos rfl]
    rw [if_neg he]
  · intro q rest hq
    rw [short_string_scan.eq_def]
    dsimp only
    rw [if_neg (Ne.symm hq), if_pos rfl, if_pos rfl]
  · simp +decide [tokenize, advance_token, advance_token_kind, short_string,
      short_string_scan, peek, is_whitespace, is_ascii_digit, utf8Len,
      EOF_CHAR]

theorem C8_witness :
    short_string_scan '"' ['\\', 'a'] = short_string_scan '"' [] ∧
    short_string_scan '"' ['\\', 'z', ' '] =
      short_string_scan '"' ([' '].dropWhile is_whitespace) :=
  ⟨C8_backslash_escape.1 '"' 'a' [] (by decide) (by decide),
   C8_backslash_escape.2.1 '"' [' '] (by decide)⟩

/-- C9: the long-bracket content scan written inline in the comment
sub-lexer is behaviourally equal to the shared routine
`consume_long_string_content`: same characters consumed, same `terminated`
flag, for every level and input. -/
theorem C9_inline_scan_refines_shared :
    ∀ (level : Nat) (l : List Char),
      comment_long_scan level l = consume_long_string_content level l := by
  intro level l
  induction l using comment_long_scan.induct level with
  | case1 =>
    rw [comment_long_scan.eq_def, consume_long_string_content.eq_def]
  | case2 r2 cl rs h =>
    rw [comment_long_scan.eq_def, consume_long_string_content.eq_def]
    have h' : (decide ((List.takeWhile (fun c => decide (c = '=')) r2).length
        = level) && decide (peek (List.dropWhile (fun c => decide (c = '='))
        r2) = ']')) = true := by
      simp only [Bool.and_eq_true, decide_eq_true_eq] at h ⊢
      exact ⟨h.1.symm, h.2⟩
    simp only [if_pos rfl, if_pos h, if_pos h', if_true]
  | case3 r2 cl rs h ih =>
    rw [comment_long_scan.eq_def, consume_long_string_content.eq_def]
    have h' : ¬(decide ((List.takeWhile (fun c => decide (c = '=')) r2).length
        = level) && decide (peek (List.dropWhile (fun c => decide (c = '='))
        r2) = ']')) = true := by
      simp only [Bool.and_eq_true, decide_eq_true_eq] at h ⊢
      intro hc
      exact h ⟨hc.1.symm, hc.2⟩
    simp only [if_pos rfl, if_neg h, if_neg h']
    exact ih
  | case4 e r2 h ih =>
    rw [comment_long_scan.eq_def, consume_long_string_content.eq_def]
    simp only [if_neg h]
    exact ih

theorem takeWhile_eq_replicate_of_eq (l : List Char) :
    l.takeWhile (fun c => c = '=') =
      List.replicate (l.takeWhile (fun c => c = '=')).length '=' := by
  rw [List.eq_replicate_length]
  intro b hb
  simpa using List.mem_takeWhile_imp hb

theorem closer_infix_of_replicate_append {level k : Nat} {m : List Char}
    (h : (']' :: (List.replicate level '=' ++ [']'])) <:+:
      (List.replicate k '=' ++ m)) :
    (']' :: (List.replicate level '=' ++ [']'])) <:+: m := by
  induction k with
  | zero => simpa using h
  | succ k ih =>
    rw [List.replicate_succ, List.cons_append] at h
    rcases List.infix_cons_iff.mp h with hp | hi
    · exact absurd (List.cons_prefix_cons.mp hp).1 (by decide)
    · exact ih hi

theorem consume_long_string_content_terminated_iff (level : Nat)
    (l : List Char) :
    (consume_long_string_content level l).1 = true ↔
      (']' :: (List.replicate level '=' ++ [']'])) <:+: l := by
  induction l using consume_long_string_content.induct level with
  | case1 =>
    rw [consume_long_string_content.eq_def]
    simp
  | case2 r2 cl rs h =>
    rw [consume_long_string_content.eq_def]
    simp only [if_pos rfl, if_pos h, if_true]
    have h2 : (List.takeWhile (fun c => decide (c = '=')) r2).length = level ∧
        peek (List.dropWhile (fun c => decide (c = '=')) r2) = ']' := by
      simpa using h
    obtain ⟨hcl, hpk⟩ := h2
    obtain ⟨t, ht⟩ : ∃ t,
        List.dropWhile (fun c => decide (c = '=')) r2 = ']' :: t := by
      cases hrs0 : List.dropWhile (fun c => decide (c = '=')) r2 with
      | nil => rw [hrs0] at hpk; exact absurd hpk (by decide)
      | cons a t2 =>
        rw [hrs0] at hpk
        simp only [peek, List.headD_cons] at hpk
        exact ⟨t2, by rw [hpk]⟩
    have e := List.takeWhile_append_dropWhile (fun c => decide (c = '=')) r2
    rw [takeWhile_eq_replicate_of_eq r2, hcl, ht] at e
    refine iff_of_true (by simp) ⟨[], t, ?_⟩
    rw [List.nil_append, ← e]
    simp
  | case3 r2 cl rs h ih =>
    rw [consume_long_string_content.eq_def]
    simp only [if_pos rfl, if_neg h, if_true]
    have ih2 : (consume_long_string_content level
        (List.dropWhile (fun c => decide (c = '=')) r2)).1 = true ↔
        (']' :: (List.replicate level '=' ++ [']'])) <:+:
          List.dropWhile (fun c => decide (c = '=')) r2 := ih
    rw [ih2]
    have e := List.takeWhile_append_dropWhile (fun c => decide (c = '=')) r2
    rw [takeWhile_eq_replicate_of_eq r2] at e
    constructor
    · intro hi
      exact hi.trans ((List.dropWhile_suffix _).trans
        (List.suffix_cons ']' r2)).isInfix
    · intro hi
      rcases List.infix_cons_iff.mp hi with hp | hi2
      · have hp2 : (List.replicate level '=' ++ [']']) <+: r2 :=
          (List.cons_prefix_cons.mp hp).2
        obtain ⟨t, ht⟩ := hp2
        rw [List.append_assoc, List.singleton_append] at ht
        have hall : ∀ a ∈ List.replicate level '=',
            (fun c => decide (c = '=')) a = true := by
          intro a ha
          simp [List.eq_of_mem_replicate ha]
        have htk : r2.takeWhile (fun c => c = '=') =
            List.replicate level '=' := by
          rw [← ht, List.takeWhile_append_of_pos hall]
          simp [List.takeWhile_cons]
        have hdp : r2.dropWhile (fun c => c = '=') = ']' :: t := by
          rw [← ht, List.dropWhile_append_of_pos hall]
          simp [List.dropWhile_cons]
        refine absurd ?_ h
        show (decide ((List.takeWhile (fun c => decide (c = '=')) r2).length
          = level) && decide (peek (List.dropWhile (fun c => decide (c = '='))
          r2) = ']')) = true
        rw [htk, hdp]
        simp [peek]
      · rw [← e] at hi2
        exact closer_infix_of_replicate_append hi2
  | case4 e r2 h ih =>
    rw [consume_long_string_content.eq_def]
    simp only [if_neg h]
    rw [ih]
    constructor
    · intro hi
      exact hi.trans (List.suffix_cons e r2).isInfix
    · intro hi
      rcases List.infix_cons_iff.mp hi with hp | hi2
      · exact absurd (List.cons_prefix_cons.mp hp).1.symm h
      · exact hi2

/-- C3: the long-bracket content scanner reports `terminated: true` exactly
when the remaining input contains a `]`, a run of exactly `level` `=`
characters, then `]`; reaching end of input without such a closer reports
`terminated: false`; the scenario input `"[==[\nlong\n]=]"` is one
unterminated `LongString{level: 2}` token spanning the whole input. -/
theorem C3_closer_iff :
    (∀ (level : Nat) (l : List Char),
      (consume_long_string_content level l).1 = true ↔
        (']' :: (List.replicate level '=' ++ [']'])) <:+: l) ∧
    tokenize ['[', '=', '=', '[', '\n', 'l', 'o', 'n', 'g', '\n', ']', '=', ']'] =
      some [⟨.Literal (.LongString 2 false), 13⟩] := by
  refine ⟨consume_long_string_content_terminated_iff, ?_⟩
  simp +decide [tokenize, advance_token, advance_token_kind, long_string,
    consume_long_string_content, peek, is_whitespace, is_ascii_digit,
    utf8Len, EOF_CHAR]

/-- Modelled from the spec: the short-string scan loop exactly as §4.5 of
the spec words it for claim C2 — scan until (a) the same quote reappears
(consume it, terminated), (b) a backslash escape unit (with `\z` whitespace
absorption), (c) an unescaped line feed or end of input (stop, not
terminated, consuming nothing).  A NUL character in the input is ordinary
content here, unlike in the code's sentinel-based scan. -/
def short_string_scan_claim (quote : Char) : List Char → Bool × List Char
  | [] => (false, [])
  | c :: rest =>
    if c = quote then (true, rest)
    else if c = '\\' then
      match rest with
      | [] => (false, [])
      | e :: r2 =>
        if e = 'z' then short_string_scan_claim quote (r2.dropWhile is_whitespace)
        else short_string_scan_claim quote r2
    else if c = '\n' then (false, c :: rest)
    else short_string_scan_claim quote rest
termination_by l => l.length
decreasing_by
  all_goals simp only [List.length_cons, List.length_nil]
  all_goals try omega
  all_goals
    have := (List.dropWhile_suffix (l := r2) is_whitespace).length_le
  all_goals omega

/-- The claim amended by the counterexample: the scan stops not terminated
at an unescaped line feed, at an unescaped NUL character (which the
sentinel-based lookahead of `Cursor::peek` cannot distinguish from end of
input), or at end of input. -/
def short_string_scan_amended (quote : Char) : List Char → Bool × List Char
  | [] => (false, [])
  | c :: rest =>
    if c = quote then (true, rest)
    else if c = '\\' then
      match rest with
      | [] => (false, [])
      | e :: r2 =>
        if e = 'z' then
          short_string_scan_amended quote (r2.dropWhile is_whitespace)
        else short_string_scan_amended quote r2
    else if c = '\n' ∨ c = '\x00' then (false, c :: rest)
    else short_string_scan_amended quote rest
termination_by l => l.length
decreasing_by
  all_goals simp only [List.length_cons, List.length_nil]
  all_goals try omega
  all_goals
    have := (List.dropWhile_suffix (l := r2) is_whitespace).length_le
  all_goals omega

/-- C2, counterexample: on the input `"a<NUL>b"` (delimited by double
quotes, with a literal U+0000 between `a` and `b`) the code's scan stops
not terminated at the NUL without consuming it, although neither a line
feed nor the end of input has been reached and the closing quote does
reappear unescaped later — the spec-worded scan terminates the string. -/
theorem C2_counterexample :
    short_string_scan '"' ['a', '\x00', 'b', '"'] =
      (false, ['\x00', 'b', '"']) ∧
    short_string_scan_claim '"' ['a', '\x00', 'b', '"'] = (true, []) ∧
    short_string_scan '"' ['a', '\x00', 'b', '"'] ≠
      short_string_scan_claim '"' ['a', '\x00', 'b', '"'] := by
  refine ⟨?_, ?_, ?_⟩ <;>
    simp +decide [short_string_scan, short_string_scan_claim, peek, EOF_CHAR]

/-- C2, amended: for the two quote characters actually passed by the
dispatcher, the code's short-string scan agrees with the spec-worded scan
amended so that an unescaped NUL character also stops the scan as not
terminated; consequently `ShortString{quote, terminated: false}` is
returned exactly when an unescaped line feed, an unescaped NUL, or the end
of input is reached (consuming nothing), and `terminated: true` exactly
when the unescaped quote reappears and is consumed. -/
theorem C2_amended_scan_eq :
    ∀ (quote : Char) (l : List Char), quote = '\'' ∨ quote = '"' →
      short_string_scan quote l = short_string_scan_amended quote l := by
  intro quote l hq
  have hq0 : ¬EOF_CHAR = quote := by
    rcases hq with rfl | rfl <;> decide
  induction l using short_string_scan.induct quote with
  | case1 h => exact absurd h hq0
  | case2 h =>
    rw [short_string_scan.eq_def, short_string_scan_amended.eq_def]
    simp only [if_neg h]
  | case3 r2 =>
    rw [short_string_scan.eq_def, short_string_scan_amended.eq_def]
    dsimp only
    simp only [if_pos rfl, if_true]
  | case4 h ih =>
    rw [short_string_scan.eq_def, short_string_scan_amended.eq_def]
    dsimp only
    simp only [if_neg h, if_pos rfl, if_true]
    rw [short_string_scan.eq_def]
    simp only [if_neg hq0]
  | case5 r2 h ih =>
    rw [short_string_scan.eq_def, short_string_scan_amended.eq_def]
    dsimp only
    simp only [if_neg h, if_pos rfl, if_true]
    exact ih
  | case6 e r2 he h ih =>
    rw [short_string_scan.eq_def, short_string_scan_amended.eq_def]
    dsimp only
    simp only [if_neg h, if_pos rfl, if_true, if_neg he]
    exact ih
  | case7 e r2 h1 h2 h3 =>
    have h4 : e = '\n' ∨ e = '\x00' := by simpa [EOF_CHAR] using h3
    rw [short_string_scan.eq_def, short_string_scan_amended.eq_def]
    dsimp only
    simp only [if_neg h1, if_neg h2, if_pos h3, if_pos h4, if_true]
  | case8 e r2 h1 h2 h3 ih =>
    have h4 : ¬(e = '\n' ∨ e = '\x00') := by simpa [EOF_CHAR] using h3
    rw [short_string_scan.eq_def, short_string_scan_amended.eq_def]
    dsimp only
    simp only [if_neg h1, if_neg h2, if_neg h3, if_neg h4]
    exact ih

theorem C2_amended_witness :
    short_string_scan '"' ['a', '\x00', 'b', '"'] =
      short_string_scan_amended '"' ['a', '\x00', 'b', '"'] :=
  C2_amended_scan_eq '"' ['a', '\x00', 'b', '"'] (Or.inr rfl)

end Tua
